import Mathlib

/-!
# Async-context escape-analysis engine: shallow embedding

Embedding of the async-context tracker of `eslint-plugin-async-event`
(`dist/utils/async-context.js`, the most complete tracker generation in the
repository) together with the two rule front-ends that consume it
(`src/rules/no-async-event-reference.ts` identifier listener and
`src/rules/no-async-event-properties.ts` member-expression listener).

Modelling conventions:
* AST node identity becomes a numeric scope id (`Nat`); the engine never
  dereferences node contents, only compares identities.
* JS strings become Lean `String`; `String.prototype.endsWith` becomes a
  suffix test on the character list.
* The `WeakMap`/`Map` collections become association lists where an update
  conses the new binding in front (so `lookup` sees the latest binding,
  matching `Map.set` followed by `Map.get`); `Set`/`WeakSet` become lists
  queried by membership.
* The function stack is kept in JS array order: index 0 is the outermost
  scope, push appends at the end, the top of the stack is the last element.
* ESLint traversal callbacks become an event type `Ev`; each event carries
  exactly the node data the listener inspects (e.g. a function's identifier
  parameters, since `collectParamNames` skips non-`Identifier` patterns, or
  the function-like arguments of a `.then`/`.catch`/`.finally` call).
-/

/-- Variable names (JS strings). -/
abbrev VarName := String

/-- Node identity of a function-like AST node. -/
abbrev ScopeId := Nat

/-- State of `createAsyncContextTracker` (`dist/utils/async-context.js`).
The `parentFunctions` map of the source is written on scope entry but never
read anywhere, so this dead field is omitted. -/
structure Tracker where
  /-- `functionStack`: JS array order, index 0 = outermost. -/
  functionStack : List ScopeId
  /-- `functionsWithAwait`: WeakMap from function node to flag. -/
  functionsWithAwait : List (ScopeId × Bool)
  /-- `functionsInPromise`: WeakSet of callback function nodes. -/
  functionsInPromise : List ScopeId
  /-- `functionParams`: WeakMap from function node to its parameter names. -/
  functionParams : List (ScopeId × List VarName)
  /-- `nonEventVariables`: Set of names bound to object/new/call initializers. -/
  nonEventVariables : List VarName
  /-- `eventAliases`: Map from alias name to its source name. -/
  eventAliases : List (VarName × VarName)
  /-- `parameterScopes`: Map from a parameter name to every function node that
  declared it (appended in traversal order, never pruned). -/
  parameterScopes : List (VarName × List ScopeId)
  deriving Repr, DecidableEq

/-- The fresh, empty tracker state built by `createAsyncContextTracker()`. -/
def Tracker.initial : Tracker := ⟨[], [], [], [], [], [], []⟩

/-- `parameterScopes.get(name) || []` / `functionParams.get(f) || new Set()`. -/
def lookupD {α β : Type} [BEq α] (l : List (α × List β)) (k : α) : List β :=
  (l.lookup k).getD []

/-- `isLikelyEventParam` of `dist/utils/async-context.js` (also
`src/utils/async-context.ts`): the default event-name classifier.
`name.endsWith('Event')` is the case-sensitive suffix test. -/
def isLikelyEventParam (name : VarName) : Bool :=
  name == "event" || name == "e" || name == "ev" || "Event".data.isSuffixOf name.data

/-- `isParameterInScope` of `dist/utils/async-context.js`: the name has a
recorded parameter scope that is currently on the function stack.  (The
source's second "parameter inheritance" loop re-tests exactly
`functionStack.includes(paramFunc)` and is therefore redundant; it is folded
into the single scan here.) -/
def isParameterInScope (s : Tracker) (name : VarName) : Bool :=
  (lookupD s.parameterScopes name).any (fun f => s.functionStack.contains f)

/-- The loop body of `isDerivedFromEventParam`: follow `eventAliases` links
(`current = eventAliases.get(current)`), stopping on a missing entry or on a
revisit of an already-expanded name, returning true as soon as a chain
element satisfies `sat`.  The JS `while` loop is bounded by the `visited`
set; here the same loop runs on fuel, with `eventAliases.size + 1` proved
sufficient (`resolveChain_fuel_stable`). -/
def resolveChain (al : List (VarName × VarName)) (sat : VarName → Bool) :
    Nat → List VarName → VarName → Bool
  | 0, _, _ => false
  | fuel + 1, visited, current =>
    match al.lookup current with
    | none => false
    | some next =>
      if visited.contains current then false
      else if sat next then true
      else resolveChain al sat fuel (current :: visited) next

/-- `isDerivedFromEventParam` of `dist/utils/async-context.js`: a chain
element counts only if it is event-like and a parameter of a scope on the
current stack. -/
def isDerivedFromEventParam (s : Tracker) (name : VarName) : Bool :=
  resolveChain s.eventAliases
    (fun c => isLikelyEventParam c && isParameterInScope s c)
    (s.eventAliases.length + 1) [] name

/-- JS `Array.prototype.indexOf`: first index of `x`, `-1` when absent. -/
def jsIndexOf (l : List ScopeId) (x : ScopeId) : Int :=
  match l with
  | [] => -1
  | a :: as =>
    if a == x then 0
    else if jsIndexOf as x < 0 then -1 else jsIndexOf as x + 1

/-- The `for (let i = 0; ...)` scan of `isInAsyncContext`: the first function
in stack order (outermost first) whose `functionsWithAwait` entry is truthy. -/
def firstAwaitFun (s : Tracker) : Option ScopeId :=
  s.functionStack.find? (fun f => (s.functionsWithAwait.lookup f).getD false)

/-- The await-branch body of `isInAsyncContext`
(`dist/utils/async-context.js`): given the outermost suspended function,
report if some recorded parameter scope of the name is that function or
strictly precedes it in the stack array (`indexOf` comparison, `-1` for
off-stack nodes), or the name is alias-derived. -/
def awaitBranchReports (s : Tracker) (name : VarName) : Bool :=
  match firstAwaitFun s with
  | none => false
  | some aFun =>
    (lookupD s.parameterScopes name).any (fun pf =>
      pf == aFun || jsIndexOf s.functionStack pf < jsIndexOf s.functionStack aFun)
    || isDerivedFromEventParam s name

/-- `inPromiseChain` of the promise-branch loop: some stack scope is a
registered promise-chain callback. -/
def inPromiseChain (s : Tracker) : Bool :=
  s.functionStack.any (fun f => s.functionsInPromise.contains f)

/-- `isDefinedInCurrentFunction` of the promise-branch loop: the name is a
declared parameter of one of the promise-chain callbacks on the stack
(parameters of other scopes on the stack are not consulted). -/
def definedInPromiseFun (s : Tracker) (name : VarName) : Bool :=
  s.functionStack.any (fun f =>
    s.functionsInPromise.contains f && (lookupD s.functionParams f).contains name)

/-- The promise-chain branch of `isInAsyncContext`: report when inside a
promise-chain callback, the name is not a parameter of any such callback on
the stack, and the name has a recorded parameter scope or is alias-derived. -/
def promiseBranchReports (s : Tracker) (name : VarName) : Bool :=
  inPromiseChain s && !definedInPromiseFun s name
    && (!(lookupD s.parameterScopes name).isEmpty || isDerivedFromEventParam s name)

/-- The two leading guards of `isInAsyncContext`: the name must be a stack
parameter or alias-derived, and event-like or alias-derived. -/
def evalGate (s : Tracker) (name : VarName) : Bool :=
  (isParameterInScope s name || isDerivedFromEventParam s name)
    && (isLikelyEventParam name || isDerivedFromEventParam s name)

/-- Which `context.report` site of `isInAsyncContext` fired, if any.  The JS
function returns `true` exactly when the outcome is not `noReport`. -/
inductive Outcome where
  | awaitReport
  | deferredReport
  | noReport
  deriving Repr, DecidableEq

/-- `isInAsyncContext` of `dist/utils/async-context.js`, with the reporting
site made observable: gate checks first, then the await branch (two report
sites, both `awaitReport`), then the promise-chain branch. -/
def isInAsyncContext (s : Tracker) (name : VarName) : Outcome :=
  if !evalGate s name then .noReport
  else if awaitBranchReports s name then .awaitReport
  else if promiseBranchReports s name then .deferredReport
  else .noReport

/-- Initializer classification seen by the `VariableDeclarator` listener. -/
inductive InitKind where
  /-- `ObjectExpression` / `NewExpression` / `CallExpression` initializer. -/
  | objectLike
  /-- `Identifier` initializer with the given source name. -/
  | identifierInit (src : VarName)
  /-- Any other initializer (or none relevant to the tracker). -/
  | otherInit
  deriving Repr, DecidableEq

/-- Traversal events dispatched to the tracker's listeners.  `enterFn`
carries the identifier-pattern parameter names (destructured/rest patterns
contribute none, as in `collectParamNames`); `callEx` carries the callee's
member-property name when the callee is a member expression, plus the node
ids of the function-expression/arrow arguments. -/
inductive Ev where
  | enterFn (id : ScopeId) (params : List VarName) (isAsync : Bool)
  | exitFn (id : ScopeId)
  | awaitEx
  | varDecl (name : VarName) (init : InitKind)
  | callEx (calleeProp : Option VarName) (funArgs : List ScopeId)
  deriving Repr, DecidableEq

/-- `collectParamNames`: besides returning the parameter-name set, it appends
the entered function node to `parameterScopes[param]` for every identifier
parameter. -/
def addParamScope (ps : List (VarName × List ScopeId)) (fn : ScopeId)
    (p : VarName) : List (VarName × List ScopeId) :=
  (p, lookupD ps p ++ [fn]) :: ps

/-- Function-entry listeners (`FunctionDeclaration` / `FunctionExpression` /
`ArrowFunctionExpression`, async and plain variants): push the scope, record
its parameters, and for async functions initialise `functionsWithAwait` to
false.  The async and non-async selectors both fire on an async node in the
source, but the plain listener is guarded by `!node.async`, so each node is
pushed once. -/
def enterFun (s : Tracker) (id : ScopeId) (params : List VarName)
    (isAsync : Bool) : Tracker :=
  { s with
    functionStack := s.functionStack ++ [id]
    functionsWithAwait :=
      if isAsync then (id, false) :: s.functionsWithAwait else s.functionsWithAwait
    functionParams := (id, params) :: s.functionParams
    parameterScopes := params.foldl (fun ps p => addParamScope ps id p) s.parameterScopes }

/-- The `:exit` listeners: pop only when the exiting node is exactly the top
of the stack; otherwise the event is ignored. -/
def exitFun (s : Tracker) (id : ScopeId) : Tracker :=
  if s.functionStack.getLast? = some id then
    { s with functionStack := s.functionStack.dropLast }
  else s

/-- The `AwaitExpression` listener: flag the current innermost function, if
any. -/
def onAwait (s : Tracker) : Tracker :=
  match s.functionStack.getLast? with
  | some top => { s with functionsWithAwait := (top, true) :: s.functionsWithAwait }
  | none => s

/-- The `VariableDeclarator` listener: object/new/call initializers join the
non-event set; identifier initializers are recorded as aliases when the
source is an event-like stack parameter or already an alias key. -/
def onVarDecl (s : Tracker) (name : VarName) (init : InitKind) : Tracker :=
  match init with
  | .objectLike => { s with nonEventVariables := name :: s.nonEventVariables }
  | .identifierInit src =>
    if (isLikelyEventParam src && isParameterInScope s src)
        || (s.eventAliases.lookup src).isSome then
      { s with eventAliases := (name, src) :: s.eventAliases }
    else s
  | .otherInit => s

/-- The `CallExpression` listener: when the callee is a member expression
whose property is `then`/`catch`/`finally`, every function-like argument is
added to `functionsInPromise`. -/
def onCallExpr (s : Tracker) (calleeProp : Option VarName)
    (funArgs : List ScopeId) : Tracker :=
  match calleeProp with
  | some p =>
    if ["then", "catch", "finally"].contains p then
      { s with functionsInPromise := funArgs ++ s.functionsInPromise }
    else s
  | none => s

/-- One traversal event dispatched to the tracker listeners. -/
def Tracker.step (s : Tracker) : Ev → Tracker
  | .enterFn id ps a => enterFun s id ps a
  | .exitFn id => exitFun s id
  | .awaitEx => onAwait s
  | .varDecl n k => onVarDecl s n k
  | .callEx p args => onCallExpr s p args

/-- A whole traversal prefix: fold the events in source order. -/
def Tracker.run (s : Tracker) (tr : List Ev) : Tracker := tr.foldl Tracker.step s

/-- The event-name set of `src/rules/no-async-event-reference.ts` (its local
`isLikelyEventParam`): exact names only. -/
def isLikelyEventParamRef (name : VarName) : Bool :=
  name == "event" || name == "e" || name == "ev"

/-- The decision taken by the `Identifier` listener of
`src/rules/no-async-event-reference.ts` for a candidate identifier reference
(one that passed the parent-shape guards): non-event exclusion first, then
the exact-name check, then the innermost-function await check, then the
promise-chain check.  The rule maintains the same stack/await/promise/params/
non-event state transitions as the tracker and no aliases, so it is evaluated
over the shared `Tracker` state, of which it reads only those fields. -/
def refRuleReports (s : Tracker) (name : VarName) : Bool :=
  if s.nonEventVariables.contains name then false
  else if isLikelyEventParamRef name then
    (match s.functionStack.getLast? with
     | some cur => (s.functionsWithAwait.lookup cur).getD false
     | none => false)
    || (inPromiseChain s && !definedInPromiseFun s name)
  else false

/-- The decision taken by the `MemberExpression` listener of
`src/rules/no-async-event-properties.ts` for `objName.prop` (dot access):
only configured properties are checked, the object must be a stack parameter
or alias-derived, event-like or alias-derived, and not in the non-event set;
then `isInAsyncContext` decides. -/
def propsRuleOutcome (s : Tracker) (disallowed : List VarName)
    (objName prop : VarName) (computed : Bool) : Outcome :=
  if disallowed.contains prop && !computed then
    if (isParameterInScope s objName || isDerivedFromEventParam s objName)
        && (isLikelyEventParam objName || isDerivedFromEventParam s objName)
        && !(s.nonEventVariables.contains objName) then
      isInAsyncContext s objName
    else .noReport
  else .noReport

/-- `hasSuspended(S)` as observed by the engine: the `functionsWithAwait`
entry is present and true (a missing entry is falsy in JS). -/
def hasSusp (s : Tracker) (f : ScopeId) : Bool :=
  (s.functionsWithAwait.lookup f).getD false

/-- Modelled from the spec: glob matching for the Event Detection
Configuration (§3, §4.3).  The configurable pattern matcher
(`setEventDetectionConfig` and the classifier behind it) is declared in the
tracker's type declarations and called by `no-async-event-properties`, but
its implementation file is absent from the sources; per §4.3, `*` in a
pattern expands to `.*` semantics over the full name, anchored at both ends,
with multiple `*` occurrences allowed.  A star consumes any (possibly empty)
prefix of the remaining name; any other character must match literally. -/
def globMatch (p n : List Char) : Bool :=
  match p, n with
  | [], n => n.isEmpty
  | c :: ps, n =>
    if c = '*' then
      globMatch ps n
        || (match n with
            | [] => false
            | _ :: ns => globMatch (c :: ps) ns)
    else
      match n with
      | [] => false
      | d :: ns => (c == d) && globMatch ps ns
termination_by (p.length, n.length)
decreasing_by
  · simp [Prod.lex_iff]
  · simp [Prod.lex_iff]
  · simp [Prod.lex_iff]

/-- Modelled from the spec: the declarative reading of a glob pattern
(§4.3): the empty pattern matches only the empty name, `*` matches any
(possibly empty) substring, and any other character matches itself; the
whole match is anchored at both ends by construction. -/
def GlobSem : List Char → List Char → Prop
  | [], n => n = []
  | c :: ps, n =>
    if c = '*' then ∃ pre suf, n = pre ++ suf ∧ GlobSem ps suf
    else ∃ m, n = c :: m ∧ GlobSem ps m

/-- Modelled from the spec: `isEventLike(name, config)` (§4.3) — the name
matches some configured pattern, each pattern being an exact name or a glob
(a star-free pattern degenerates to exact equality under `globMatch`). -/
def isEventLike (name : VarName) (patterns : List VarName) : Bool :=
  patterns.any (fun pat => globMatch pat.data name.data)

/-- First-suspended-scope index in stack array order (claim-side notion for
the escape evaluator's scan). -/
def firstSuspendedIdx (s : Tracker) : Option Nat :=
  s.functionStack.findIdx? (fun f => (s.functionsWithAwait.lookup f).getD false)

/-- Claim-side condition for the suspended branch (C1 as stated): some scope
on the stack has suspended, and the candidate name is a parameter of the
first such scope or of a scope enclosing it (an on-stack binding at or
outward from it), or the name is alias-derived. -/
def specAwaitCondition (s : Tracker) (name : VarName) : Bool :=
  match firstSuspendedIdx s with
  | none => false
  | some i =>
    (lookupD s.parameterScopes name).any (fun pf =>
      match s.functionStack.findIdx? (fun g => g == pf) with
      | some j => decide (j ≤ i)
      | none => false)
    || isDerivedFromEventParam s name

/-- Claim-side condition for the deferred branch (C2 as stated): the name is
a parameter declared directly on a deferred stack scope or on a scope pushed
after it (a nested scope between the deferred scope and the use site), hence
locally shadowed and not reportable. -/
def specC2Shadowed (s : Tracker) (name : VarName) : Bool :=
  s.functionStack.tails.any (fun t =>
    match t with
    | [] => false
    | d :: rest =>
      s.functionsInPromise.contains d
        && (d :: rest).any (fun f => (lookupD s.functionParams f).contains name))

/-- C1 counterexample trace: a sibling `function f(event) {}` is entered and
exited, then an async function with an await, then inside it an arrow with
its own `event` parameter, where `event` is then used. -/
def c1Trace : List Ev :=
  [.enterFn 0 ["event"] false, .exitFn 0,
   .enterFn 1 [] true, .awaitEx,
   .enterFn 2 ["event"] false]

/-- Tracker state at the C1 counterexample use site. -/
def c1State : Tracker := Tracker.run Tracker.initial c1Trace

/-- C2 counterexample trace: `function handler() { p().then(() => { const g =
(event) => { use(event) } }) }` — the use site sits inside an arrow whose own
parameter is `event`, nested inside the deferred `.then` callback. -/
def c2Trace : List Ev :=
  [.enterFn 0 [] false,
   .callEx (some "then") [1],
   .enterFn 1 [] false,
   .enterFn 2 ["event"] false]

/-- Tracker state at the C2 counterexample use site. -/
def c2State : Tracker := Tracker.run Tracker.initial c2Trace

/-- C2 positive-side state: `function handler() { p().then((event) => {
use(event) }) }` — the deferred callback declares the matching parameter
itself. -/
def c2OwnTrace : List Ev :=
  [.enterFn 0 [] false,
   .callEx (some "then") [1],
   .enterFn 1 ["event"] false]

/-- Tracker state at the use of the deferred callback's own parameter. -/
def c2OwnState : Tracker := Tracker.run Tracker.initial c2OwnTrace

/-- `n`-fold iteration of the alias map: the name reached after following
`eventAliases` exactly `n` times (none when the chain runs out earlier). -/
def iterAlias (al : List (VarName × VarName)) : Nat → VarName → Option VarName
  | 0, x => some x
  | n + 1, x =>
    match al.lookup x with
    | none => none
    | some y => iterAlias al n y

/-- Number of distinct alias keys not yet expanded by the chain walk: the
measure that bounds the `while` loop of `isDerivedFromEventParam`. -/
def keysLeft (al : List (VarName × VarName)) (visited : List VarName) : Nat :=
  ((al.map Prod.fst).dedup.filter (fun k => !visited.contains k)).length

/-- C10 demonstration trace: `function f() { const event = {...} }` followed
by a sibling `async function g() { await x; use(event) }`. -/
def c10Trace : List Ev :=
  [.enterFn 0 [] false, .varDecl "event" .objectLike, .exitFn 0,
   .enterFn 1 [] true, .awaitEx]

/-- Tracker state at the C10 demonstration use site. -/
def c10State : Tracker := Tracker.run Tracker.initial c10Trace


/-! ## Helper lemmas -/

theorem contains_iff_mem {α : Type} [BEq α] [LawfulBEq α] (l : List α) (a : α) :
    l.contains a = true ↔ a ∈ l :=
  List.elem_iff

theorem lookup_cons_self {α β : Type} [BEq α] [LawfulBEq α] (k : α) (v : β)
    (l : List (α × β)) : List.lookup k ((k, v) :: l) = some v := by
  simp [List.lookup_cons]

theorem lookup_cons_ne {α β : Type} [BEq α] [LawfulBEq α] {k k' : α} (v : β)
    (l : List (α × β)) (h : k ≠ k') : List.lookup k ((k', v) :: l) = List.lookup k l := by
  have hb : (k == k') = false := by simpa using h
  rw [List.lookup_cons, hb]

theorem resolveChain_false_of_sat_false (al : List (VarName × VarName))
    (sat : VarName → Bool) (h : ∀ c, sat c = false) :
    ∀ (fuel : Nat) (visited : List VarName) (current : VarName),
      resolveChain al sat fuel visited current = false := by
  intro fuel
  induction fuel with
  | zero => intro visited current; rfl
  | succ n ih =>
    intro visited current
    rw [resolveChain]
    cases hl : al.lookup current with
    | none => rfl
    | some next =>
      cases hv : visited.contains current with
      | true => simp
      | false => simp [h next, ih]

theorem exitFun_fields (s : Tracker) (id : ScopeId) :
    (exitFun s id).functionsWithAwait = s.functionsWithAwait ∧
    (exitFun s id).functionsInPromise = s.functionsInPromise ∧
    (exitFun s id).functionParams = s.functionParams ∧
    (exitFun s id).nonEventVariables = s.nonEventVariables ∧
    (exitFun s id).eventAliases = s.eventAliases ∧
    (exitFun s id).parameterScopes = s.parameterScopes := by
  unfold exitFun
  by_cases h : s.functionStack.getLast? = some id <;> simp [h]

/-! ## C6: default event-likeness patterns -/

/-- C6.  With the default configuration, the event-likeness classifier
accepts exactly `event`, `e`, `ev`, and the names carrying the literal
case-sensitive suffix `Event`; in particular `mouseEvent` and
`customEvent123Event` are accepted and `events` is rejected. -/
theorem c6_default_patterns :
    (∀ name : VarName, isLikelyEventParam name = true ↔
      (name = "event" ∨ name = "e" ∨ name = "ev" ∨
        ∃ pre : List Char, name.data = pre ++ "Event".data))
    ∧ isLikelyEventParam "mouseEvent" = true
    ∧ isLikelyEventParam "customEvent123Event" = true
    ∧ isLikelyEventParam "events" = false := by
  refine ⟨fun name => ?_, by decide, by decide, by decide⟩
  unfold isLikelyEventParam
  simp only [Bool.or_eq_true, beq_iff_eq, List.isSuffixOf_iff_suffix]
  constructor
  · rintro (((h | h) | h) | ⟨t, ht⟩)
    · exact Or.inl h
    · exact Or.inr (Or.inl h)
    · exact Or.inr (Or.inr (Or.inl h))
    · exact Or.inr (Or.inr (Or.inr ⟨t, ht.symm⟩))
  · rintro (h | h | h | ⟨pre, hpre⟩)
    · exact Or.inl (Or.inl (Or.inl h))
    · exact Or.inl (Or.inl (Or.inr h))
    · exact Or.inl (Or.inr h)
    · exact Or.inr ⟨pre, hpre.symm⟩

/-! ## C8: defensive scope exit -/

/-- C8.  `exitFunctionScope` pops exactly when the exiting node is the top of
the stack; a mismatched exit leaves the whole state unchanged (the listener
is a total function: no anomalous node can fail the analysis). -/
theorem c8_exit_scope : ∀ (s : Tracker) (id : ScopeId),
    ((s.functionStack.getLast? = some id ∧
        (Tracker.step s (.exitFn id)).functionStack = s.functionStack.dropLast) ∨
     (s.functionStack.getLast? ≠ some id ∧ Tracker.step s (.exitFn id) = s))
    ∧ (Tracker.step s (.exitFn id)).functionsWithAwait = s.functionsWithAwait
    ∧ (Tracker.step s (.exitFn id)).functionsInPromise = s.functionsInPromise
    ∧ (Tracker.step s (.exitFn id)).functionParams = s.functionParams
    ∧ (Tracker.step s (.exitFn id)).nonEventVariables = s.nonEventVariables
    ∧ (Tracker.step s (.exitFn id)).eventAliases = s.eventAliases
    ∧ (Tracker.step s (.exitFn id)).parameterScopes = s.parameterScopes := by
  intro s id
  refine ⟨?_, (exitFun_fields s id).1, (exitFun_fields s id).2.1,
    (exitFun_fields s id).2.2.1, (exitFun_fields s id).2.2.2.1,
    (exitFun_fields s id).2.2.2.2.1, (exitFun_fields s id).2.2.2.2.2⟩
  by_cases h : s.functionStack.getLast? = some id
  · exact Or.inl ⟨h, by simp [Tracker.step, exitFun, h]⟩
  · exact Or.inr ⟨h, by simp [Tracker.step, exitFun, h]⟩

/-! ## C10: popping a scope touches only the stack -/

/-- C10.  Exiting a scope mutates only the function stack: the non-event set,
the alias record, the parameter-scope record, the per-function parameter sets
and the suspension flags all survive; concretely, `const event = {...}`
recorded inside an exited sibling still suppresses reporting for `event`
inside a later async function after `await`. -/
theorem c10_pop_frame :
    (∀ (s : Tracker) (id : ScopeId),
      (Tracker.step s (.exitFn id)).nonEventVariables = s.nonEventVariables ∧
      (Tracker.step s (.exitFn id)).eventAliases = s.eventAliases ∧
      (Tracker.step s (.exitFn id)).parameterScopes = s.parameterScopes ∧
      (Tracker.step s (.exitFn id)).functionParams = s.functionParams ∧
      (Tracker.step s (.exitFn id)).functionsWithAwait = s.functionsWithAwait ∧
      (Tracker.step s (.exitFn id)).functionsInPromise = s.functionsInPromise)
    ∧ c10State.nonEventVariables.contains "event" = true
    ∧ refRuleReports c10State "event" = false
    ∧ propsRuleOutcome c10State ["currentTarget"] "event" "currentTarget" false
        = .noReport := by
  refine ⟨fun s id => ?_, by decide, by decide, by decide⟩
  obtain ⟨h1, h2, h3, h4, h5, h6⟩ := exitFun_fields s id
  exact ⟨h4, h5, h6, h3, h1, h2⟩

/-! ## C9: totality at the top level -/

/-- C9.  With an empty scope stack every engine operation is total and inert:
the await listener is a no-op, the escape evaluator and both rule front-ends
decide no-report, so a top-level use is never flagged. -/
theorem c9_empty_stack : ∀ (s : Tracker) (name : VarName),
    s.functionStack = [] →
    Tracker.step s .awaitEx = s ∧
    isInAsyncContext s name = .noReport ∧
    refRuleReports s name = false ∧
    ∀ (disallowed : List VarName) (prop : VarName) (computed : Bool),
      propsRuleOutcome s disallowed name prop computed = .noReport := by
  intro s name h
  have hscope : ∀ n, isParameterInScope s n = false := by
    intro n
    simp [isParameterInScope, h]
  have hder : ∀ n, isDerivedFromEventParam s n = false := by
    intro n
    apply resolveChain_false_of_sat_false
    intro c
    simp [hscope c]
  have hgate : evalGate s name = false := by
    simp [evalGate, hscope, hder]
  have heval : isInAsyncContext s name = .noReport := by
    simp [isInAsyncContext, hgate]
  refine ⟨?_, heval, ?_, ?_⟩
  · simp [Tracker.step, onAwait, h]
  · unfold refRuleReports
    cases hne : s.nonEventVariables.contains name with
    | true => simp
    | false => simp [h, inPromiseChain]
  · intro disallowed prop computed
    unfold propsRuleOutcome
    cases hc : disallowed.contains prop && !computed with
    | false => simp
    | true => simp [hscope, hder]

/-- C9 witness: at the initial (top-level) state, the await listener is a
no-op and a use of `event` is not flagged. -/
theorem c9_empty_stack_witness :
    Tracker.step Tracker.initial .awaitEx = Tracker.initial ∧
    isInAsyncContext Tracker.initial "event" = .noReport ∧
    refRuleReports Tracker.initial "event" = false :=
  ⟨(c9_empty_stack Tracker.initial "event" rfl).1,
   (c9_empty_stack Tracker.initial "event" rfl).2.1,
   (c9_empty_stack Tracker.initial "event" rfl).2.2.1⟩

/-! ## C1 and C2: counterexamples -/

/-- C1 counterexample.  In the state reached by `c1Trace` (a sibling
`function f(event) {}` already exited, then `async function g() { await ...;
((event) => use(event)) }`), the only on-stack binding of `event` lies
strictly inside the first suspended scope and no alias is recorded, so the
claim's condition is false — yet the evaluator reports through the suspended
branch, because the exited sibling's entry in the parameter-scope record has
stack index `-1` and is treated as enclosing. -/
theorem c1_counterexample :
    isInAsyncContext c1State "event" = .awaitReport ∧
    specAwaitCondition c1State "event" = false :=
  ⟨by decide, by decide⟩

/-- C2 counterexample.  In the state reached by `c2Trace` (`function handler()
{ p().then(() => { ((event) => use(event)) }) }`), the name `event` is a
parameter of a nested scope between the deferred callback and the use site —
locally shadowed per the claim — yet the evaluator reports through the
deferred branch, because only parameters declared directly on deferred scopes
suppress the report. -/
theorem c2_counterexample :
    isInAsyncContext c2State "event" = .deferredReport ∧
    specC2Shadowed c2State "event" = true :=
  ⟨by decide, by decide⟩

/-! ## C5: the hasSuspended flag -/

theorem hasSusp_step_iff (s : Tracker) (e : Ev) (S : ScopeId) :
    hasSusp (Tracker.step s e) S = true ↔
      ((e = Ev.awaitEx ∧ s.functionStack.getLast? = some S) ∨
       (hasSusp s S = true ∧ ∀ ps : List VarName, e ≠ Ev.enterFn S ps true)) := by
  cases e with
  | enterFn id ps a =>
    cases a with
    | false => simp [Tracker.step, enterFun, hasSusp]
    | true =>
      by_cases hid : id = S
      · subst hid
        simp [Tracker.step, enterFun, hasSusp, lookup_cons_self]
      · simp [Tracker.step, enterFun, hasSusp,
          lookup_cons_ne _ _ (fun h => hid h.symm), hid]
  | exitFn id =>
    simp [Tracker.step, hasSusp, (exitFun_fields s id).1]
  | awaitEx =>
    unfold Tracker.step onAwait
    cases htop : s.functionStack.getLast? with
    | none => simp [hasSusp, htop]
    | some top =>
      by_cases htS : top = S
      · subst htS
        simp [hasSusp, lookup_cons_self, htop]
      · simp [hasSusp, lookup_cons_ne _ _ (fun h => htS h.symm), htop, htS]
  | varDecl n k =>
    cases k with
    | objectLike => simp [Tracker.step, onVarDecl, hasSusp]
    | identifierInit src =>
      simp only [Tracker.step, onVarDecl]
      split <;> simp [hasSusp]
    | otherInit => simp [Tracker.step, onVarDecl, hasSusp]
  | callEx p args =>
    cases p with
    | none => simp [Tracker.step, onCallExpr, hasSusp]
    | some q =>
      simp only [Tracker.step, onCallExpr]
      split <;> simp [hasSusp]

/-- C5.  Per traversal step, `hasSuspended(S)` holds afterwards exactly when
the step is an await observed while `S` is the innermost scope, or it already
held and the step did not (re-)enter `S` as an async function — so the flag is
set only by an await lexically inside `S` itself, transitions false→true, and
within one traversal (where `S` is entered at most once, hence never again
after its flag is set) it is never reset. -/
theorem c5_hasSuspended :
    (∀ (s : Tracker) (e : Ev) (S : ScopeId),
      hasSusp (Tracker.step s e) S = true ↔
        ((e = Ev.awaitEx ∧ s.functionStack.getLast? = some S) ∨
         (hasSusp s S = true ∧ ∀ ps : List VarName, e ≠ Ev.enterFn S ps true)))
    ∧ (∀ (s : Tracker) (tr : List Ev) (S : ScopeId),
        (∀ (ps : List VarName) (a : Bool), Ev.enterFn S ps a ∉ tr) →
        hasSusp s S = true → hasSusp (Tracker.run s tr) S = true) := by
  refine ⟨hasSusp_step_iff, ?_⟩
  intro s tr
  induction tr generalizing s with
  | nil => intro S _ h; exact h
  | cons e es ih =>
    intro S hmem h
    have hne : ∀ ps : List VarName, e ≠ Ev.enterFn S ps true := by
      intro ps heq
      exact hmem ps true (heq ▸ List.mem_cons_self e es)
    have hstep : hasSusp (Tracker.step s e) S = true :=
      (hasSusp_step_iff s e S).mpr (Or.inr ⟨h, hne⟩)
    exact ih (Tracker.step s e) S
      (fun ps a hin => hmem ps a (List.mem_cons_of_mem e hin)) hstep

/-- C5 witness: a state whose scope `5` has suspended keeps the flag across
an (empty) rest of traversal. -/
theorem c5_hasSuspended_witness :
    hasSusp (Tracker.run { Tracker.initial with functionsWithAwait := [(5, true)] } []) 5
      = true :=
  c5_hasSuspended.2 { Tracker.initial with functionsWithAwait := [(5, true)] } [] 5
    (fun _ _ => List.not_mem_nil _) rfl

/-! ## C3: the non-event set dominates -/

theorem nonEvent_mono_step (s : Tracker) (e : Ev) (name : VarName)
    (h : s.nonEventVariables.contains name = true) :
    (Tracker.step s e).nonEventVariables.contains name = true := by
  cases e with
  | enterFn id ps a => simpa [Tracker.step, enterFun] using h
  | exitFn id => simpa [Tracker.step, (exitFun_fields s id).2.2.2.1] using h
  | awaitEx =>
    unfold Tracker.step onAwait
    cases s.functionStack.getLast? <;> simpa using h
  | varDecl n k =>
    cases k with
    | objectLike =>
      rw [contains_iff_mem] at h
      simp only [Tracker.step, onVarDecl]
      rw [contains_iff_mem]
      exact List.mem_cons_of_mem _ h
    | identifierInit src =>
      simp only [Tracker.step, onVarDecl]
      split <;> simpa using h
    | otherInit => simpa [Tracker.step, onVarDecl] using h
  | callEx p args =>
    cases p with
    | none => simpa [Tracker.step, onCallExpr] using h
    | some q =>
      simp only [Tracker.step, onCallExpr]
      split <;> simpa using h

theorem nonEvent_mono_run (s : Tracker) (tr : List Ev) (name : VarName)
    (h : s.nonEventVariables.contains name = true) :
    (Tracker.run s tr).nonEventVariables.contains name = true := by
  induction tr generalizing s with
  | nil => exact h
  | cons e es ih => exact ih (Tracker.step s e) (nonEvent_mono_step s e name h)

/-- C3.  Once a name enters the non-event set it stays there for the rest of
the traversal, and both rule front-ends then decide no-report for every use
of that name, regardless of pattern match or alias derivation. -/
theorem c3_nonevent_dominates : ∀ (s : Tracker) (name : VarName) (tr : List Ev),
    s.nonEventVariables.contains name = true →
    ((Tracker.run s tr).nonEventVariables.contains name = true ∧
     refRuleReports (Tracker.run s tr) name = false ∧
     ∀ (disallowed : List VarName) (prop : VarName) (computed : Bool),
       propsRuleOutcome (Tracker.run s tr) disallowed name prop computed
         = .noReport) := by
  intro s name tr h
  have hrun := nonEvent_mono_run s tr name h
  refine ⟨hrun, ?_, ?_⟩
  · unfold refRuleReports
    rw [if_pos hrun]
  · intro d p c
    unfold propsRuleOutcome
    cases hc : d.contains p && !c with
    | false => simp
    | true =>
      simp only [hrun, Bool.not_true, Bool.and_false]
      simp

/-- C3 witness: with `event` in the non-event set, neither front-end reports
a use of `event`. -/
theorem c3_nonevent_dominates_witness :
    refRuleReports { Tracker.initial with nonEventVariables := ["event"] } "event"
      = false ∧
    propsRuleOutcome { Tracker.initial with nonEventVariables := ["event"] }
      ["currentTarget"] "event" "currentTarget" false = Outcome.noReport := by
  have h := c3_nonevent_dominates
    { Tracker.initial with nonEventVariables := ["event"] } "event" [] (by decide)
  exact ⟨h.2.1, h.2.2 ["currentTarget"] "currentTarget" false⟩

/-! ## C2: the deferred branch, amended -/

theorem promiseBranch_iff (s : Tracker) (name : VarName) :
    promiseBranchReports s name = true ↔
      ((∃ d ∈ s.functionStack, d ∈ s.functionsInPromise) ∧
       (∀ d ∈ s.functionStack, d ∈ s.functionsInPromise →
          name ∉ lookupD s.functionParams d) ∧
       (lookupD s.parameterScopes name ≠ [] ∨
        isDerivedFromEventParam s name = true)) := by
  unfold promiseBranchReports inPromiseChain definedInPromiseFun
  simp [List.isEmpty_iff]
  try tauto

theorem isInAsyncContext_deferred_iff (s : Tracker) (name : VarName) :
    isInAsyncContext s name = .deferredReport ↔
      (evalGate s name = true ∧ awaitBranchReports s name = false ∧
       (∃ d ∈ s.functionStack, d ∈ s.functionsInPromise) ∧
       (∀ d ∈ s.functionStack, d ∈ s.functionsInPromise →
          name ∉ lookupD s.functionParams d) ∧
       (lookupD s.parameterScopes name ≠ [] ∨
        isDerivedFromEventParam s name = true)) := by
  unfold isInAsyncContext
  cases hg : evalGate s name with
  | false => simp
  | true =>
    cases ha : awaitBranchReports s name with
    | true => simp
    | false =>
      cases hp : promiseBranchReports s name with
      | true => simpa using (promiseBranch_iff s name).mp hp
      | false =>
        constructor
        · intro h
          simp at h
        · rintro ⟨-, -, h1, h2, h3⟩
          have := (promiseBranch_iff s name).mpr ⟨h1, h2, h3⟩
          rw [hp] at this
          exact absurd this (by simp)

/-- C2, amended.  The evaluator reports through the deferred branch iff the
gate passes, the suspended branch did not fire, some stack scope is a
registered continuation callback, the candidate name is not a parameter
declared directly on any such deferred stack scope, and the name has a
recorded parameter binding somewhere or is alias-derived.  Parameters of
nested non-deferred scopes between the deferred scope and the use site do
not shadow (contrary to the original claim); a deferred scope's own matching
parameter, however, never produces a deferred-branch report. -/
theorem c2_amended :
    (∀ (s : Tracker) (name : VarName),
      isInAsyncContext s name = .deferredReport ↔
        (evalGate s name = true ∧ awaitBranchReports s name = false ∧
         (∃ d ∈ s.functionStack, d ∈ s.functionsInPromise) ∧
         (∀ d ∈ s.functionStack, d ∈ s.functionsInPromise →
            name ∉ lookupD s.functionParams d) ∧
         (lookupD s.parameterScopes name ≠ [] ∨
          isDerivedFromEventParam s name = true)))
    ∧ (∀ (s : Tracker) (name : VarName) (d : ScopeId),
        d ∈ s.functionStack → d ∈ s.functionsInPromise →
        name ∈ lookupD s.functionParams d →
        isInAsyncContext s name ≠ .deferredReport) := by
  refine ⟨isInAsyncContext_deferred_iff, ?_⟩
  intro s name d hd hp hparam hrep
  obtain ⟨-, -, -, hall, -⟩ := (isInAsyncContext_deferred_iff s name).mp hrep
  exact hall d hd hp hparam

/-- C2 witness: for `.then((event) => use(event))` the deferred callback's own
parameter is never reported by the deferred branch. -/
theorem c2_amended_witness :
    isInAsyncContext c2OwnState "event" ≠ .deferredReport :=
  c2_amended.2 c2OwnState "event" 1 (by decide) (by decide) (by decide)

/-! ## C1: the suspended branch, amended -/

theorem jsIndexOf_eq_neg_one (l : List ScopeId) (x : ScopeId) (h : x ∉ l) :
    jsIndexOf l x = -1 := by
  induction l with
  | nil => rfl
  | cons a as ih =>
    have hax : a ≠ x := fun he => h (he ▸ List.mem_cons_self a as)
    have has : x ∉ as := fun hm => h (List.mem_cons_of_mem a hm)
    rw [jsIndexOf, if_neg (by simp [hax]), ih has, if_pos (by norm_num)]

theorem jsIndexOf_nonneg (l : List ScopeId) (x : ScopeId) (h : x ∈ l) :
    0 ≤ jsIndexOf l x := by
  induction l with
  | nil => exact absurd h (List.not_mem_nil x)
  | cons a as ih =>
    rw [jsIndexOf]
    by_cases hax : a = x
    · rw [if_pos (by simp [hax])]
    · rw [if_neg (by simp [hax])]
      have hm : x ∈ as := by
        rcases List.mem_cons.mp h with h' | h'
        · exact absurd h'.symm hax
        · exact h'
      have := ih hm
      rw [if_neg (by omega)]
      omega

theorem jsIndexOf_cons_self (a : ScopeId) (as : List ScopeId) :
    jsIndexOf (a :: as) a = 0 := by
  rw [jsIndexOf, if_pos (by simp)]

theorem jsIndexOf_cons_mem (a x : ScopeId) (as : List ScopeId) (hax : a ≠ x)
    (hm : x ∈ as) : jsIndexOf (a :: as) x = jsIndexOf as x + 1 := by
  rw [jsIndexOf, if_neg (by simp [hax])]
  have := jsIndexOf_nonneg as x hm
  rw [if_neg (by omega)]

theorem jsIndexOf_lt_of_decomp :
    ∀ (pre : List ScopeId) (aF : ScopeId) (post : List ScopeId) (pf : ScopeId),
    (pre ++ aF :: post).Nodup → pf ≠ aF → pf ∈ pre ++ aF :: post →
    (jsIndexOf (pre ++ aF :: post) pf < jsIndexOf (pre ++ aF :: post) aF ↔
      pf ∈ pre) := by
  intro pre
  induction pre with
  | nil =>
    intro aF post pf _ hne hm
    simp only [List.nil_append] at hm ⊢
    have hp : pf ∈ post := by
      rcases List.mem_cons.mp hm with h | h
      · exact absurd h hne
      · exact h
    rw [jsIndexOf_cons_self, jsIndexOf_cons_mem aF pf post (fun h => hne h.symm) hp]
    have := jsIndexOf_nonneg post pf hp
    constructor
    · intro hlt; omega
    · intro hc; exact absurd hc (List.not_mem_nil pf)
  | cons b pre' ih =>
    intro aF post pf hnd hne hm
    rw [List.cons_append] at hnd hm ⊢
    have hnd' : (pre' ++ aF :: post).Nodup := (List.nodup_cons.mp hnd).2
    have hbni : b ∉ pre' ++ aF :: post := (List.nodup_cons.mp hnd).1
    have haFmem : aF ∈ pre' ++ aF :: post :=
      List.mem_append_right pre' (List.mem_cons_self aF post)
    have hbaF : b ≠ aF := fun h => hbni (h ▸ haFmem)
    by_cases hpb : pf = b
    · subst hpb
      rw [jsIndexOf_cons_self, jsIndexOf_cons_mem pf aF _ hbaF haFmem]
      have := jsIndexOf_nonneg _ aF haFmem
      simp only [List.mem_cons, true_or, iff_true]
      omega
    · have hm' : pf ∈ pre' ++ aF :: post := by
        rcases List.mem_cons.mp hm with h | h
        · exact absurd h hpb
        · exact h
      rw [jsIndexOf_cons_mem b pf _ (fun h => hpb h.symm) hm',
        jsIndexOf_cons_mem b aF _ hbaF haFmem, List.mem_cons]
      constructor
      · intro hlt
        exact Or.inr ((ih aF post pf hnd' hne hm').mp (by omega))
      · rintro (h | h)
        · exact absurd h hpb
        · have := (ih aF post pf hnd' hne hm').mpr h
          omega

theorem jsCond_iff (pre : List ScopeId) (aF : ScopeId) (post : List ScopeId)
    (pf : ScopeId) (hnd : (pre ++ aF :: post).Nodup) :
    ((pf == aF ||
        jsIndexOf (pre ++ aF :: post) pf < jsIndexOf (pre ++ aF :: post) aF)
      = true) ↔
      (pf ∉ pre ++ aF :: post ∨ pf ∈ pre ++ [aF]) := by
  by_cases hne : pf = aF
  · subst hne
    simp only [beq_self_eq_true, Bool.true_or, true_iff]
    exact Or.inr (List.mem_append_right pre (List.mem_cons_self pf []))
  · have hbeq : (pf == aF) = false := by simp [hne]
    rw [hbeq, Bool.false_or, decide_eq_true_eq]
    have haFmem : aF ∈ pre ++ aF :: post :=
      List.mem_append_right pre (List.mem_cons_self aF post)
    by_cases hm : pf ∈ pre ++ aF :: post
    · have hiff := jsIndexOf_lt_of_decomp pre aF post pf hnd hne hm
      constructor
      · intro h
        exact Or.inr (List.mem_append_left [aF] (hiff.mp h))
      · rintro (h | h)
        · exact absurd hm h
        · rcases List.mem_append.mp h with h' | h'
          · exact hiff.mpr h'
          · rcases List.mem_cons.mp h' with h'' | h''
            · exact absurd h'' hne
            · exact absurd h'' (List.not_mem_nil pf)
    · have h1 : jsIndexOf (pre ++ aF :: post) pf = -1 :=
        jsIndexOf_eq_neg_one _ _ hm
      have h2 : 0 ≤ jsIndexOf (pre ++ aF :: post) aF :=
        jsIndexOf_nonneg _ _ haFmem
      constructor
      · intro _; exact Or.inl hm
      · intro _; omega

theorem first_sat_unique {α : Type} (p : α → Bool) :
    ∀ (as pre : List α) (a b : α) (bs post : List α),
      as ++ a :: bs = pre ++ b :: post →
      (∀ x ∈ as, p x = false) → p a = true →
      (∀ x ∈ pre, p x = false) → p b = true →
      as = pre ∧ a = b ∧ bs = post := by
  intro as
  induction as with
  | nil =>
    intro pre a b bs post heq _ ha hpre _
    cases pre with
    | nil =>
      simp only [List.nil_append] at heq
      injection heq with h1 h2
      exact ⟨rfl, h1, h2⟩
    | cons q qs =>
      simp only [List.nil_append, List.cons_append] at heq
      injection heq with h1 h2
      have hq : p q = false := hpre q (List.mem_cons_self q qs)
      rw [← h1] at hq
      rw [ha] at hq
      exact absurd hq (by simp)
  | cons c as' ih =>
    intro pre a b bs post heq has ha hpre hb
    cases pre with
    | nil =>
      simp only [List.cons_append, List.nil_append] at heq
      injection heq with h1 h2
      have hc : p c = false := has c (List.mem_cons_self c as')
      rw [h1, hb] at hc
      exact absurd hc (by simp)
    | cons q qs =>
      simp only [List.cons_append] at heq
      injection heq with h1 h2
      have has' : ∀ x ∈ as', p x = false :=
        fun x hx => has x (List.mem_cons_of_mem c hx)
      have hpre' : ∀ x ∈ qs, p x = false :=
        fun x hx => hpre x (List.mem_cons_of_mem q hx)
      obtain ⟨e1, e2, e3⟩ := ih qs a b bs post h2 has' ha hpre' hb
      exact ⟨by rw [h1, e1], e2, e3⟩

theorem awaitBranch_iff (s : Tracker) (name : VarName)
    (hnd : s.functionStack.Nodup) :
    awaitBranchReports s name = true ↔
      ∃ pre aF post, s.functionStack = pre ++ aF :: post ∧
        (∀ f ∈ pre, hasSusp s f = false) ∧ hasSusp s aF = true ∧
        ((∃ pf ∈ lookupD s.parameterScopes name,
            pf ∉ s.functionStack ∨ pf ∈ pre ++ [aF]) ∨
         isDerivedFromEventParam s name = true) := by
  unfold awaitBranchReports firstAwaitFun
  cases hfa : s.functionStack.find?
      (fun f => (s.functionsWithAwait.lookup f).getD false) with
  | none =>
    rw [List.find?_eq_none] at hfa
    constructor
    · intro h
      exact absurd h (by simp)
    · rintro ⟨pre, aF, post, hl, _, haF, _⟩
      have hmem : aF ∈ s.functionStack :=
        hl ▸ List.mem_append_right pre (List.mem_cons_self aF post)
      exact absurd haF (by simpa using hfa aF hmem)
  | some aFun =>
    rw [List.find?_eq_some] at hfa
    obtain ⟨hsat, as, bs, hl, hprev⟩ := hfa
    have hndl : (as ++ aFun :: bs).Nodup := by rw [hl] at hnd; exact hnd
    constructor
    · intro h
      rw [Bool.or_eq_true] at h
      rcases h with h | h
      · rw [List.any_eq_true] at h
        obtain ⟨pf, hpf, hcond⟩ := h
        rw [hl] at hcond
        refine ⟨as, aFun, bs, hl, ?_, hsat, Or.inl ⟨pf, hpf, ?_⟩⟩
        · intro f hf
          simpa using hprev f hf
        · rw [hl]
          exact (jsCond_iff as aFun bs pf hndl).mp hcond
      · exact ⟨as, aFun, bs, hl, (fun f hf => by simpa using hprev f hf),
          hsat, Or.inr h⟩
    · rintro ⟨pre, aF, post, hl2, hpre2, haF2, hrest⟩
      obtain ⟨e1, e2, e3⟩ := first_sat_unique
        (fun f => (s.functionsWithAwait.lookup f).getD false)
        as pre aFun aF bs post (hl ▸ hl2 ▸ rfl)
        (fun x hx => by simpa using hprev x hx) hsat
        (fun x hx => hpre2 x hx) haF2
      rw [Bool.or_eq_true]
      rcases hrest with ⟨pf, hpf, hcond⟩ | hder
      · left
        rw [List.any_eq_true]
        refine ⟨pf, hpf, ?_⟩
        rw [hl]
        apply (jsCond_iff as aFun bs pf hndl).mpr
        rw [← hl]
        rcases hcond with h | h
        · exact Or.inl h
        · rw [← e1, ← e2] at h
          exact Or.inr h
      · exact Or.inr hder

theorem isInAsyncContext_await_iff (s : Tracker) (name : VarName) :
    isInAsyncContext s name = .awaitReport ↔
      (evalGate s name = true ∧ awaitBranchReports s name = true) := by
  unfold isInAsyncContext
  cases hg : evalGate s name with
  | false => simp
  | true =>
    cases ha : awaitBranchReports s name with
    | true => simp
    | false => cases hp : promiseBranchReports s name <;> simp

/-- C1, amended.  With a duplicate-free stack, the evaluator reports through
the suspended branch iff the gate passes and, taking the outermost suspended
scope, either the name is alias-derived, or some recorded parameter scope of
the name is at or outward from that scope — or is not on the current stack at
all: a stale entry left by an already-exited function also triggers the
report (contrary to the original claim, which admitted only on-stack origins
at or outward from the first suspended scope). -/
theorem c1_amended : ∀ (s : Tracker) (name : VarName),
    s.functionStack.Nodup →
    (isInAsyncContext s name = .awaitReport ↔
      (evalGate s name = true ∧
       ∃ pre aF post, s.functionStack = pre ++ aF :: post ∧
         (∀ f ∈ pre, hasSusp s f = false) ∧ hasSusp s aF = true ∧
         ((∃ pf ∈ lookupD s.parameterScopes name,
             pf ∉ s.functionStack ∨ pf ∈ pre ++ [aF]) ∨
          isDerivedFromEventParam s name = true))) := by
  intro s name hnd
  rw [isInAsyncContext_await_iff]
  constructor
  · rintro ⟨hg, ha⟩
    exact ⟨hg, (awaitBranch_iff s name hnd).mp ha⟩
  · rintro ⟨hg, hex⟩
    exact ⟨hg, (awaitBranch_iff s name hnd).mpr hex⟩

/-- C1 amended witness: in the counterexample state the stale sibling entry
(`0`, no longer on the stack) satisfies the amended condition, and the
evaluator indeed reports through the suspended branch. -/
theorem c1_amended_witness : isInAsyncContext c1State "event" = .awaitReport :=
  (c1_amended c1State "event" (by decide)).mpr
    ⟨by decide, [], 1, [2], by decide, (by simp), by decide,
      Or.inl ⟨0, by decide, Or.inl (by decide)⟩⟩


/-! ## C4: alias-chain resolution -/

theorem mem_keys_of_lookup {α β : Type} [BEq α] [LawfulBEq α]
    (al : List (α × β)) (c : α) (w : β) (h : al.lookup c = some w) :
    c ∈ al.map Prod.fst := by
  induction al with
  | nil => simp [List.lookup] at h
  | cons p ps ih =>
    rw [List.lookup_cons] at h
    by_cases hc : c = p.1
    · simp [hc]
    · have hb : (c == p.1) = false := by simpa using hc
      rw [hb] at h
      exact List.mem_cons_of_mem _ (ih h)

theorem keysLeft_cons_lt (al : List (VarName × VarName)) (visited : List VarName)
    (current next : VarName) (hl : al.lookup current = some next)
    (hv : visited.contains current = false) :
    keysLeft al (current :: visited) < keysLeft al visited := by
  unfold keysLeft
  have hmem : current ∈ (al.map Prod.fst).dedup :=
    List.mem_dedup.mpr (mem_keys_of_lookup al current next hl)
  have hfilter :
      (al.map Prod.fst).dedup.filter (fun k => !(current :: visited).contains k)
        = ((al.map Prod.fst).dedup.filter (fun k => !visited.contains k)).filter
            (fun k => !(k == current)) := by
    rw [List.filter_filter]
    apply List.filter_congr
    intro x _
    rw [List.contains_cons, Bool.not_or]
  rw [hfilter]
  apply List.length_filter_lt_length_iff_exists.mpr
  exact ⟨current, List.mem_filter.mpr ⟨hmem, by simpa using hv⟩, by simp⟩

theorem contains_eq_false_of_not_mem {α : Type} [BEq α] [LawfulBEq α]
    (l : List α) (a : α) (h : a ∉ l) : l.contains a = false := by
  cases hc : l.contains a with
  | false => rfl
  | true => exact absurd ((contains_iff_mem _ _).mp hc) h

theorem resolveChain_sound (al : List (VarName × VarName)) (sat : VarName → Bool) :
    ∀ (fuel : Nat) (visited : List VarName) (current : VarName),
      resolveChain al sat fuel visited current = true →
      ∃ n, 0 < n ∧ ∃ c, iterAlias al n current = some c ∧ sat c = true := by
  intro fuel
  induction fuel with
  | zero =>
    intro v c h
    simp [resolveChain] at h
  | succ m ih =>
    intro visited current h
    rw [resolveChain] at h
    cases hl : al.lookup current with
    | none => simp [hl] at h
    | some next =>
      by_cases hv : current ∈ visited
      · simp [hl, hv] at h
      · by_cases hs : sat next = true
        · exact ⟨1, Nat.one_pos, next, by simp [iterAlias, hl], hs⟩
        · simp [hl, hv, hs] at h
          obtain ⟨n, hn, c, hit, hsat⟩ := ih (current :: visited) next h
          refine ⟨n + 1, Nat.succ_pos n, c, ?_, hsat⟩
          simpa [iterAlias, hl] using hit

theorem resolveChain_complete (al : List (VarName × VarName)) (sat : VarName → Bool) :
    ∀ (fuel : Nat) (visited : List VarName) (current : VarName),
      keysLeft al visited < fuel →
      (∀ v ∈ visited, ∃ w, al.lookup v = some w ∧ sat w = false ∧
          (w ∈ visited ∨ w = current)) →
      resolveChain al sat fuel visited current = false →
      ∀ (n : Nat), 0 < n → ∀ c, iterAlias al n current = some c → sat c = false := by
  intro fuel
  induction fuel with
  | zero =>
    intro v c hf
    omega
  | succ m ih =>
    intro visited current hf hinv h n hn c hit
    rw [resolveChain] at h
    cases hl : al.lookup current with
    | none =>
      cases n with
      | zero => omega
      | succ k => simp [iterAlias, hl] at hit
    | some next =>
      by_cases hcur : current ∈ visited
      · have aux : ∀ (k : Nat) (x : VarName), x ∈ visited →
            ∀ d, iterAlias al k x = some d →
              (d ∈ visited ∧ (0 < k → sat d = false)) := by
          intro k
          induction k with
          | zero =>
            intro x hx d hd
            simp only [iterAlias, Option.some.injEq] at hd
            exact ⟨hd ▸ hx, by omega⟩
          | succ j ihj =>
            intro x hx d hd
            obtain ⟨w, hw, hws, hwm⟩ := hinv x hx
            simp only [iterAlias, hw] at hd
            have hwv : w ∈ visited := by
              rcases hwm with h' | h'
              · exact h'
              · exact h' ▸ hcur
            obtain ⟨hdv, hsat⟩ := ihj w hwv d hd
            refine ⟨hdv, fun _ => ?_⟩
            cases j with
            | zero =>
              simp only [iterAlias, Option.some.injEq] at hd
              exact hd ▸ hws
            | succ i => exact hsat (Nat.succ_pos i)
        exact (aux n current hcur c hit).2 hn
      · by_cases hs : sat next = true
        · simp [hl, hcur, hs] at h
        · simp [hl, hcur, hs] at h
          have hvf : visited.contains current = false :=
            contains_eq_false_of_not_mem _ _ hcur
          have hsf : sat next = false := by simpa using hs
          have hf' : keysLeft al (current :: visited) < m := by
            have := keysLeft_cons_lt al visited current next hl hvf
            omega
          have hinv' : ∀ v ∈ current :: visited, ∃ w, al.lookup v = some w ∧
              sat w = false ∧ (w ∈ current :: visited ∨ w = next) := by
            intro v hvv
            rcases List.mem_cons.mp hvv with h' | h'
            · exact ⟨next, by rw [h']; exact hl, hsf, Or.inr rfl⟩
            · obtain ⟨w, hw, hws, hwm⟩ := hinv v h'
              refine ⟨w, hw, hws, ?_⟩
              rcases hwm with h'' | h''
              · exact Or.inl (List.mem_cons_of_mem current h'')
              · exact Or.inl (by rw [h'']; exact List.mem_cons_self current visited)
          have hcomp := ih (current :: visited) next hf' hinv' h
          cases n with
          | zero => omega
          | succ k =>
            simp only [iterAlias, hl] at hit
            cases k with
            | zero =>
              simp only [iterAlias, Option.some.injEq] at hit
              exact hit ▸ hsf
            | succ j => exact hcomp (j + 1) (Nat.succ_pos j) c hit

theorem resolveChain_fuel_stable (al : List (VarName × VarName))
    (sat : VarName → Bool) :
    ∀ (fuel fuel' : Nat) (visited : List VarName) (current : VarName),
      keysLeft al visited < fuel → keysLeft al visited < fuel' →
      resolveChain al sat fuel visited current
        = resolveChain al sat fuel' visited current := by
  intro fuel
  induction fuel with
  | zero =>
    intro f' v c h
    omega
  | succ m ih =>
    intro fuel' visited current hf hf'
    cases fuel' with
    | zero => omega
    | succ m' =>
      rw [resolveChain, resolveChain]
      cases hl : al.lookup current with
      | none => rfl
      | some next =>
        by_cases hv : current ∈ visited
        · simp [hv]
        · by_cases hs : sat next = true
          · simp [hv, hs]
          · have hvf : visited.contains current = false :=
              contains_eq_false_of_not_mem _ _ hv
            have hlt := keysLeft_cons_lt al visited current next hl hvf
            simp [hv, hs]
            exact ih m' (current :: visited) next (by omega) (by omega)

/-- C4.  `isDerivedFromEventParam` returns true iff following the alias map
at least once reaches a name that is both event-like and a declared parameter
of a scope on the current stack; chains that cycle or bottom out at an
unmatched name resolve to false, and the walk computes the same answer for
any fuel at or beyond the alias-map bound, i.e. resolution terminates. -/
theorem c4_derived_chain :
    (∀ (s : Tracker) (name : VarName),
      isDerivedFromEventParam s name = true ↔
        ∃ n, 0 < n ∧ ∃ c, iterAlias s.eventAliases n name = some c ∧
          isLikelyEventParam c = true ∧ isParameterInScope s c = true)
    ∧ (∀ (s : Tracker) (name : VarName) (fuel : Nat),
        s.eventAliases.length + 1 ≤ fuel →
        resolveChain s.eventAliases
          (fun c => isLikelyEventParam c && isParameterInScope s c) fuel [] name
          = isDerivedFromEventParam s name) := by
  have hkey : ∀ (s : Tracker),
      keysLeft s.eventAliases [] < s.eventAliases.length + 1 := by
    intro s
    unfold keysLeft
    have h1 := (List.filter_sublist (p := fun k => !([] : List VarName).contains k)
      (s.eventAliases.map Prod.fst).dedup).length_le
    have h2 := (List.dedup_sublist (s.eventAliases.map Prod.fst)).length_le
    have h3 := List.length_map s.eventAliases (Prod.fst)
    omega
  constructor
  · intro s name
    constructor
    · intro h
      unfold isDerivedFromEventParam at h
      obtain ⟨n, hn, c, hit, hsat⟩ := resolveChain_sound s.eventAliases _ _ [] name h
      rw [Bool.and_eq_true] at hsat
      exact ⟨n, hn, c, hit, hsat.1, hsat.2⟩
    · rintro ⟨n, hn, c, hit, h1, h2⟩
      by_contra hfalse
      rw [Bool.not_eq_true] at hfalse
      unfold isDerivedFromEventParam at hfalse
      have := resolveChain_complete s.eventAliases _ (s.eventAliases.length + 1)
        [] name (hkey s) (by simp) hfalse n hn c hit
      rw [h1, h2] at this
      simp at this
  · intro s name fuel hfuel
    unfold isDerivedFromEventParam
    exact resolveChain_fuel_stable _ _ fuel (s.eventAliases.length + 1) [] name
      (lt_of_lt_of_le (hkey s) hfuel) (hkey s)

/-- C4 witness: at the initial tracker the minimal sufficient fuel computes
the same answer as `isDerivedFromEventParam`. -/
theorem c4_derived_chain_witness :
    resolveChain Tracker.initial.eventAliases
      (fun c => isLikelyEventParam c && isParameterInScope Tracker.initial c)
      1 [] "event" = isDerivedFromEventParam Tracker.initial "event" :=
  c4_derived_chain.2 Tracker.initial "event" 1 (by decide)

/-! ## C7: the configurable pattern classifier (modelled from the spec) -/

theorem globSem_of_no_star : ∀ (p n : List Char), '*' ∉ p →
    (GlobSem p n ↔ n = p) := by
  intro p
  induction p with
  | nil =>
    intro n _
    simp [GlobSem]
  | cons c ps ih =>
    intro n hstar
    have hc : c ≠ '*' := fun h => hstar (h ▸ List.mem_cons_self c ps)
    have hps : '*' ∉ ps := fun h => hstar (List.mem_cons_of_mem c h)
    simp only [GlobSem, if_neg hc]
    constructor
    · rintro ⟨m, rfl, hm⟩
      rw [(ih m hps).mp hm]
    · rintro rfl
      exact ⟨ps, rfl, (ih ps hps).mpr rfl⟩

theorem globMatch_star_iff (ps n : List Char) :
    globMatch ('*' :: ps) n = true ↔
      (globMatch ps n = true ∨
       ∃ d ns, n = d :: ns ∧ globMatch ('*' :: ps) ns = true) := by
  rw [globMatch.eq_def]
  cases n with
  | nil => simp
  | cons d ns =>
    simp
    constructor
    · rintro (h | h)
      · exact Or.inl h
      · exact Or.inr ⟨d, ns, ⟨rfl, rfl⟩, h⟩
    · rintro (h | ⟨d', ns', ⟨rfl, rfl⟩, h⟩)
      · exact Or.inl h
      · exact Or.inr h

theorem globMatch_char_iff (c : Char) (hc : c ≠ '*') (ps n : List Char) :
    globMatch (c :: ps) n = true ↔
      (∃ ns, n = c :: ns ∧ globMatch ps ns = true) := by
  rw [globMatch.eq_def]
  cases n with
  | nil => simp [hc]
  | cons d ns =>
    simp only [if_neg hc, Bool.and_eq_true, beq_iff_eq, List.cons.injEq]
    constructor
    · rintro ⟨rfl, h⟩
      exact ⟨ns, ⟨rfl, rfl⟩, h⟩
    · rintro ⟨ns', ⟨rfl, rfl⟩, h⟩
      exact ⟨rfl, h⟩

theorem globSem_star_iff (ps n : List Char) :
    GlobSem ('*' :: ps) n ↔ ∃ pre suf, n = pre ++ suf ∧ GlobSem ps suf := by
  simp [GlobSem]

theorem globMatch_iff_sem : ∀ (k : Nat) (p n : List Char),
    p.length + n.length ≤ k → (globMatch p n = true ↔ GlobSem p n) := by
  intro k
  induction k with
  | zero =>
    intro p n hk
    cases p with
    | cons a as =>
      exfalso
      simp only [List.length_cons] at hk
      omega
    | nil =>
      cases n with
      | cons b bs =>
        exfalso
        simp only [List.length_cons, List.length_nil] at hk
        omega
      | nil =>
        rw [globMatch.eq_def]
        simp [GlobSem]
  | succ k ih =>
    intro p n hk
    cases p with
    | nil =>
      rw [globMatch.eq_def]
      cases n <;> simp [GlobSem]
    | cons c ps =>
      by_cases hc : c = '*'
      · subst hc
        rw [globMatch_star_iff, globSem_star_iff]
        constructor
        · rintro (h | ⟨d, ns, rfl, h⟩)
          · refine ⟨[], n, rfl, ?_⟩
            apply (ih ps n ?_).mp h
            simp only [List.length_cons] at hk
            omega
          · have hrec := (ih ('*' :: ps) ns ?_).mp h
            · rw [globSem_star_iff] at hrec
              obtain ⟨pre, suf, heq, hsem⟩ := hrec
              exact ⟨d :: pre, suf, by rw [heq, List.cons_append], hsem⟩
            · simp only [List.length_cons] at hk ⊢
              omega
        · rintro ⟨pre, suf, heq, hsem⟩
          cases pre with
          | nil =>
            rw [List.nil_append] at heq
            subst heq
            refine Or.inl ((ih ps n ?_).mpr hsem)
            simp only [List.length_cons] at hk
            omega
          | cons d pre' =>
            rw [List.cons_append] at heq
            subst heq
            refine Or.inr ⟨d, pre' ++ suf, rfl, ?_⟩
            refine (ih ('*' :: ps) (pre' ++ suf) ?_).mpr ?_
            · simp only [List.length_cons, List.length_append] at hk ⊢
              omega
            · rw [globSem_star_iff]
              exact ⟨pre', suf, rfl, hsem⟩
      · rw [globMatch_char_iff c hc, GlobSem]
        simp only [if_neg hc]
        constructor
        · rintro ⟨ns, rfl, h⟩
          refine ⟨ns, rfl, (ih ps ns ?_).mp h⟩
          simp only [List.length_cons] at hk
          omega
        · rintro ⟨m, rfl, hsem⟩
          refine ⟨m, rfl, (ih ps m ?_).mpr hsem⟩
          simp only [List.length_cons] at hk
          omega

/-- C7.  `isEventLike(name, config)` (modelled from the spec, its
implementation being absent from the sources) accepts a name iff the name
equals a configured star-free (exact) pattern or satisfies the declarative
anchored `.*` semantics of a configured wildcard pattern, with any number of
`*` occurrences at any positions; as a Lean function it is pure by
construction.  Concrete checks: suffix, prefix and multi-star patterns. -/
theorem c7_isEventLike :
    (∀ (name : VarName) (patterns : List VarName),
      isEventLike name patterns = true ↔
        ∃ pat ∈ patterns,
          (('*' ∉ pat.data) ∧ name.data = pat.data) ∨
          (('*' ∈ pat.data) ∧ GlobSem pat.data name.data))
    ∧ isEventLike "mouseEvent" ["*Event"] = true
    ∧ isEventLike "events" ["*Event"] = false
    ∧ isEventLike "xAyBz" ["x*y*z"] = true
    ∧ isEventLike "foobar" ["foo*"] = true := by
  refine ⟨?_, by simp [isEventLike, globMatch], by simp [isEventLike, globMatch],
    by simp [isEventLike, globMatch], by simp [isEventLike, globMatch]⟩
  intro name patterns
  unfold isEventLike
  rw [List.any_eq_true]
  constructor
  · rintro ⟨pat, hpat, h⟩
    have hsem := (globMatch_iff_sem (pat.data.length + name.data.length)
      pat.data name.data le_rfl).mp h
    by_cases hstar : '*' ∈ pat.data
    · exact ⟨pat, hpat, Or.inr ⟨hstar, hsem⟩⟩
    · exact ⟨pat, hpat,
        Or.inl ⟨hstar, (globSem_of_no_star pat.data name.data hstar).mp hsem⟩⟩
  · rintro ⟨pat, hpat, h | h⟩
    · refine ⟨pat, hpat, (globMatch_iff_sem (pat.data.length + name.data.length)
        pat.data name.data le_rfl).mpr ?_⟩
      exact (globSem_of_no_star pat.data name.data h.1).mpr h.2
    · exact ⟨pat, hpat, (globMatch_iff_sem (pat.data.length + name.data.length)
        pat.data name.data le_rfl).mpr h.2⟩
